import Mathlib

/-!
Verification development for the Document_OCR repository.

Text is modelled as `List Char`. The two relevant modules are embedded:

* `OCRApp.post_process_text` / `OCRApp.fix_common_errors` (src/Pytesseract.py,
  lines 172-218) — the text cleaner;
* `DocumentManager` (src/document_manager.py) — the field extractor
  `parse_document_info` and the SQLite-backed store
  (`save_document`, `edit_selected_document` / `save_changes`,
  `delete_selected_document`, `log_action`, `on_search_change`,
  `show_document_details`, `init_database`).

Python timestamps (`datetime.now().isoformat()`, sortable ISO-8601 strings)
are modelled as `Nat` clock instants supplied by the caller.
-/

/-- ASCII whitespace, modelling Python `str.strip()` / `str.split()`
whitespace on ASCII text. -/
def isWs (c : Char) : Bool :=
  c == ' ' || c == '\t' || c == '\n' || c == '\r' || c == '\x0b' || c == '\x0c'

/-- Python `line.strip()`: drop leading and trailing whitespace. -/
def stripWs (l : List Char) : List Char :=
  ((l.dropWhile isWs).reverse.dropWhile isWs).reverse

/-- Accumulator-based splitting on whitespace runs, dropping empty pieces:
the behaviour of Python `line.split()` (no separator argument).
`acc` holds the current word reversed. -/
def wordsAux : List Char → List Char → List (List Char)
  | [], acc => if acc = [] then [] else [acc.reverse]
  | c :: rest, acc =>
    if isWs c then
      if acc = [] then wordsAux rest [] else acc.reverse :: wordsAux rest []
    else
      wordsAux rest (c :: acc)

/-- Python `line.split()`. -/
def wordsOf (l : List Char) : List (List Char) := wordsAux l []

/-- Python `' '.join(ws)`. -/
def joinSp : List (List Char) → List Char
  | [] => []
  | [w] => w
  | w :: ws => w ++ ' ' :: joinSp ws

/-- Python `' '.join(line.split())`: collapse internal whitespace runs to a
single space (also dropping any edge whitespace). -/
def collapseWs (l : List Char) : List Char := joinSp (wordsOf l)

/-- Pointwise form of `OCRApp.fix_common_errors`: the fixed substitution table
`| [ ] -> I`, `{ -> (`, `} -> )`. -/
def fixChar (c : Char) : Char :=
  if c = '|' then 'I'
  else if c = '[' then 'I'
  else if c = ']' then 'I'
  else if c = '\x7b' then '('
  else if c = '\x7d' then ')'
  else c

/-- Python `text.replace(a, b)` for single-character `a`, `b`. -/
def replaceChar (a b : Char) (l : List Char) : List Char :=
  l.map fun c => if c = a then b else c

/-- `OCRApp.fix_common_errors` (src/Pytesseract.py lines 204-218): the five
`str.replace` calls applied in dictionary insertion order. -/
def fix_common_errors (l : List Char) : List Char :=
  replaceChar '\x7d' ')'
    (replaceChar '\x7b' '('
      (replaceChar ']' 'I'
        (replaceChar '[' 'I'
          (replaceChar '|' 'I' l))))

/-- The per-line body of `OCRApp.post_process_text`: strip, drop if empty,
collapse spaces, fix common OCR errors, keep only if the result has length
greater than 2 and contains an alphanumeric character. -/
def processLine (l : List Char) : Option (List Char) :=
  if stripWs l = [] then none
  else if 2 < (fix_common_errors (collapseWs (stripWs l))).length ∧
            (fix_common_errors (collapseWs (stripWs l))).any Char.isAlphanum = true then
    some (fix_common_errors (collapseWs (stripWs l)))
  else none

/-- Accumulator-based splitting on a newline, keeping empty pieces:
Python `text.split(chr(10))`. -/
def splitNlAux : List Char → List Char → List (List Char)
  | [], acc => [acc.reverse]
  | c :: rest, acc =>
    if c = '\n' then acc.reverse :: splitNlAux rest []
    else splitNlAux rest (c :: acc)

/-- Python `text.split(chr(10))`. -/
def splitNl (l : List Char) : List (List Char) := splitNlAux l []

/-- Python `chr(10).join(ls)`. -/
def joinNl : List (List Char) → List Char
  | [] => []
  | [w] => w
  | w :: ws => w ++ '\n' :: joinNl ws

/-- The `cleaned_lines` list built by `OCRApp.post_process_text`
(src/Pytesseract.py lines 172-202). -/
def cleanedLines (t : List Char) : List (List Char) :=
  List.filterMap processLine (splitNl t)

/-- `OCRApp.post_process_text`: split into lines, clean each line, keep the
valid ones, rejoin with newlines.  The surrounding `try`/`except` in the
source only matters for internal exceptions, which this pure model cannot
produce; the normal path is embedded exactly. -/
def post_process_text (t : List Char) : List Char :=
  joinNl (cleanedLines t)

/-- A list of words: each nonempty and whitespace-free (what Python
`line.split()` produces). -/
def IsWordList (ws : List (List Char)) : Prop :=
  ∀ w ∈ ws, w ≠ [] ∧ ∀ c ∈ w, isWs c = false

theorem fixChar_fixChar (c : Char) : fixChar (fixChar c) = fixChar c := by
  by_cases h1 : c = '|'
  · rw [h1]; decide
  by_cases h2 : c = '['
  · rw [h2]; decide
  by_cases h3 : c = ']'
  · rw [h3]; decide
  by_cases h4 : c = '\x7b'
  · rw [h4]; decide
  by_cases h5 : c = '\x7d'
  · rw [h5]; decide
  have hc : fixChar c = c := by
    unfold fixChar
    rw [if_neg h1, if_neg h2, if_neg h3, if_neg h4, if_neg h5]
  simp only [hc]

theorem isWs_fixChar (c : Char) : isWs (fixChar c) = isWs c := by
  by_cases h1 : c = '|'
  · rw [h1]; decide
  by_cases h2 : c = '['
  · rw [h2]; decide
  by_cases h3 : c = ']'
  · rw [h3]; decide
  by_cases h4 : c = '\x7b'
  · rw [h4]; decide
  by_cases h5 : c = '\x7d'
  · rw [h5]; decide
  have hc : fixChar c = c := by
    unfold fixChar
    rw [if_neg h1, if_neg h2, if_neg h3, if_neg h4, if_neg h5]
  rw [hc]

theorem fix_eq_map_fixChar (l : List Char) : fix_common_errors l = l.map fixChar := by
  unfold fix_common_errors replaceChar
  simp only [List.map_map]
  refine List.map_congr_left (fun c _ => ?_)
  simp only [Function.comp]
  by_cases h1 : c = '|'
  · rw [h1]; decide
  by_cases h2 : c = '['
  · rw [h2]; decide
  by_cases h3 : c = ']'
  · rw [h3]; decide
  by_cases h4 : c = '\x7b'
  · rw [h4]; decide
  by_cases h5 : c = '\x7d'
  · rw [h5]; decide
  rw [if_neg h1, if_neg h2, if_neg h3, if_neg h4, if_neg h5]
  have hc : fixChar c = c := by
    unfold fixChar
    rw [if_neg h1, if_neg h2, if_neg h3, if_neg h4, if_neg h5]
  rw [hc]

theorem wordsAux_wordlist (l : List Char) :
    ∀ acc : List Char, (∀ c ∈ acc, isWs c = false) → IsWordList (wordsAux l acc) := by
  induction l with
  | nil =>
    intro acc hacc
    unfold wordsAux
    by_cases h : acc = []
    · rw [if_pos h]; intro w hw; cases hw
    · rw [if_neg h]
      intro w hw
      rcases List.mem_singleton.1 hw with rfl
      refine ⟨fun hrev => h (by simpa using congrArg List.reverse hrev), ?_⟩
      intro c hc
      exact hacc c (List.mem_reverse.1 hc)
  | cons c rest ih =>
    intro acc hacc
    unfold wordsAux
    by_cases hws : isWs c
    · rw [if_pos hws]
      by_cases h : acc = []
      · rw [if_pos h]; exact ih [] (by intro x hx; cases hx)
      · rw [if_neg h]
        intro w hw
        rcases List.mem_cons.1 hw with rfl | hw'
        · refine ⟨fun hrev => h (by simpa using congrArg List.reverse hrev), ?_⟩
          intro x hx
          exact hacc x (List.mem_reverse.1 hx)
        · exact ih [] (by intro x hx; cases hx) w hw'
    · rw [if_neg hws]
      refine ih (c :: acc) ?_
      intro x hx
      rcases List.mem_cons.1 hx with rfl | hx'
      · simpa using hws
      · exact hacc x hx'

theorem wordsOf_wordlist (l : List Char) : IsWordList (wordsOf l) :=
  wordsAux_wordlist l [] (by intro x hx; cases hx)

theorem wordsAux_cons_nonws (c : Char) (hc : isWs c = false) (rest acc : List Char) :
    wordsAux (c :: rest) acc = wordsAux rest (c :: acc) := by
  simp only [wordsAux]
  rw [if_neg (by simp [hc])]

theorem wordsAux_append (w : List Char) (hw : ∀ c ∈ w, isWs c = false) :
    ∀ (l acc : List Char), wordsAux (w ++ l) acc = wordsAux l (w.reverse ++ acc) := by
  induction w with
  | nil => intro l acc; simp
  | cons c cs ih =>
    intro l acc
    have hc : isWs c = false := hw c (List.mem_cons_self c cs)
    have hcs : ∀ x ∈ cs, isWs x = false := fun x hx => hw x (List.mem_cons_of_mem c hx)
    simp only [List.cons_append]
    rw [wordsAux_cons_nonws c hc (cs ++ l) acc]
    rw [ih hcs l (c :: acc)]
    simp [List.reverse_cons, List.append_assoc]

theorem joinSp_cons_cons (w x : List Char) (xs : List (List Char)) :
    joinSp (w :: x :: xs) = w ++ ' ' :: joinSp (x :: xs) := rfl

theorem wordsOf_joinSp (ws : List (List Char)) (h : IsWordList ws) :
    wordsOf (joinSp ws) = ws := by
  induction ws with
  | nil => rfl
  | cons w t ih =>
    obtain ⟨hwne, hwchars⟩ := h w (List.mem_cons_self w t)
    have ht : IsWordList t := fun x hx => h x (List.mem_cons_of_mem w hx)
    cases t with
    | nil =>
      show wordsAux w [] = [w]
      have := wordsAux_append w hwchars [] []
      rw [List.append_nil] at this
      rw [this]
      unfold wordsAux
      rw [List.append_nil, if_neg (by simpa using hwne)]
      simp
    | cons x xs =>
      rw [joinSp_cons_cons]
      show wordsAux (w ++ ' ' :: joinSp (x :: xs)) [] = w :: x :: xs
      rw [wordsAux_append w hwchars (' ' :: joinSp (x :: xs)) []]
      rw [List.append_nil]
      unfold wordsAux
      rw [if_pos (by decide), if_neg (by simpa using hwne)]
      rw [List.reverse_reverse]
      exact congrArg (w :: ·) (ih ht)

theorem mem_joinSp (ws : List (List Char)) (h : IsWordList ws) :
    ∀ c ∈ joinSp ws, isWs c = false ∨ c = ' ' := by
  induction ws with
  | nil => intro c hc; cases hc
  | cons w t ih =>
    obtain ⟨-, hwchars⟩ := h w (List.mem_cons_self w t)
    have ht : IsWordList t := fun x hx => h x (List.mem_cons_of_mem w hx)
    cases t with
    | nil =>
      intro c hc
      exact Or.inl (hwchars c hc)
    | cons x xs =>
      intro c hc
      rw [joinSp_cons_cons] at hc
      rcases List.mem_append.1 hc with hc' | hc'
      · exact Or.inl (hwchars c hc')
      · rcases List.mem_cons.1 hc' with rfl | hc''
        · exact Or.inr rfl
        · exact ih ht c hc''

theorem joinSp_append_one (ws : List (List Char)) (w : List Char) (hne : ws ≠ []) :
    joinSp (ws ++ [w]) = joinSp ws ++ ' ' :: w := by
  induction ws with
  | nil => exact absurd rfl hne
  | cons a t ih =>
    cases t with
    | nil => rfl
    | cons b bs =>
      simp only [List.cons_append]
      rw [joinSp_cons_cons a b (bs ++ [w]), joinSp_cons_cons a b bs]
      have ih' := ih (by simp)
      simp only [List.cons_append] at ih'
      rw [ih']
      simp [List.append_assoc]

theorem joinSp_reverse (ws : List (List Char)) :
    (joinSp ws).reverse = joinSp ((ws.map List.reverse).reverse) := by
  induction ws with
  | nil => rfl
  | cons w t ih =>
    cases t with
    | nil => rfl
    | cons x xs =>
      rw [joinSp_cons_cons]
      have hrev : (w ++ ' ' :: joinSp (x :: xs)).reverse
          = (joinSp (x :: xs)).reverse ++ ' ' :: w.reverse := by
        simp
      rw [hrev, ih]
      have hmap : ((w :: x :: xs).map List.reverse).reverse
          = ((x :: xs).map List.reverse).reverse ++ [w.reverse] := by
        simp
      rw [hmap]
      rw [joinSp_append_one _ _ (by simp)]

theorem wordlist_reverse (ws : List (List Char)) (h : IsWordList ws) :
    IsWordList ((ws.map List.reverse).reverse) := by
  intro w hw
  rw [List.mem_reverse, List.mem_map] at hw
  obtain ⟨v, hv, rfl⟩ := hw
  obtain ⟨hvne, hvchars⟩ := h v hv
  refine ⟨by simpa using hvne, ?_⟩
  intro c hc
  exact hvchars c (List.mem_reverse.1 hc)

theorem dropWhile_isWs_eq_self (l : List Char)
    (h : ∀ c, l.head? = some c → isWs c = false) : l.dropWhile isWs = l := by
  cases l with
  | nil => rfl
  | cons a t =>
    rw [List.dropWhile_cons]
    rw [h a rfl]
    simp

theorem joinSp_headNonWs (ws : List (List Char)) (h : IsWordList ws) :
    ∀ c, (joinSp ws).head? = some c → isWs c = false := by
  cases ws with
  | nil => intro c hc; cases hc
  | cons w t =>
    obtain ⟨hwne, hwchars⟩ := h w (List.mem_cons_self w t)
    obtain ⟨a, as, rfl⟩ := List.exists_cons_of_ne_nil hwne
    intro c hc
    cases t with
    | nil =>
      have : (joinSp [a :: as]).head? = some a := rfl
      rw [this] at hc
      cases hc
      exact hwchars a (List.mem_cons_self a as)
    | cons x xs =>
      rw [joinSp_cons_cons] at hc
      have : ((a :: as) ++ ' ' :: joinSp (x :: xs)).head? = some a := rfl
      rw [this] at hc
      cases hc
      exact hwchars a (List.mem_cons_self a as)

theorem stripWs_joinSp (ws : List (List Char)) (h : IsWordList ws) :
    stripWs (joinSp ws) = joinSp ws := by
  unfold stripWs
  rw [dropWhile_isWs_eq_self _ (joinSp_headNonWs ws h)]
  rw [joinSp_reverse]
  rw [dropWhile_isWs_eq_self _ (joinSp_headNonWs _ (wordlist_reverse ws h))]
  rw [← joinSp_reverse, List.reverse_reverse]

theorem map_fixChar_joinSp (ws : List (List Char)) :
    (joinSp ws).map fixChar = joinSp (ws.map (List.map fixChar)) := by
  induction ws with
  | nil => rfl
  | cons w t ih =>
    cases t with
    | nil => rfl
    | cons x xs =>
      rw [joinSp_cons_cons]
      have hsp : fixChar ' ' = ' ' := by decide
      have : (w ++ ' ' :: joinSp (x :: xs)).map fixChar
          = w.map fixChar ++ ' ' :: (joinSp (x :: xs)).map fixChar := by
        simp [hsp]
      rw [this, ih]
      rfl

theorem wordlist_map_fixChar (ws : List (List Char)) (h : IsWordList ws) :
    IsWordList (ws.map (List.map fixChar)) := by
  intro w hw
  rw [List.mem_map] at hw
  obtain ⟨v, hv, rfl⟩ := hw
  obtain ⟨hvne, hvchars⟩ := h v hv
  refine ⟨by simpa using hvne, ?_⟩
  intro c hc
  rw [List.mem_map] at hc
  obtain ⟨a, ha, rfl⟩ := hc
  rw [isWs_fixChar]
  exact hvchars a ha

theorem map_fixChar_idem (w : List Char) :
    (w.map fixChar).map fixChar = w.map fixChar := by
  rw [List.map_map]
  exact List.map_congr_left (fun a _ => fixChar_fixChar a)

theorem processLine_some_eq {l m : List Char} (h : processLine l = some m) :
    m = fix_common_errors (collapseWs (stripWs l)) ∧ stripWs l ≠ [] ∧
      2 < m.length ∧ m.any Char.isAlphanum = true := by
  unfold processLine at h
  by_cases h1 : stripWs l = []
  · rw [if_pos h1] at h; cases h
  · rw [if_neg h1] at h
    by_cases h2 : 2 < (fix_common_errors (collapseWs (stripWs l))).length ∧
        (fix_common_errors (collapseWs (stripWs l))).any Char.isAlphanum = true
    · rw [if_pos h2] at h
      cases h
      exact ⟨rfl, h1, h2⟩
    · rw [if_neg h2] at h; cases h

theorem processLine_some_wordlist {l m : List Char} (h : processLine l = some m) :
    ∃ ws, IsWordList ws ∧ m = joinSp ws ∧ ws.map (List.map fixChar) = ws := by
  obtain ⟨hm, -, -⟩ := processLine_some_eq h
  refine ⟨(wordsOf (stripWs l)).map (List.map fixChar),
    wordlist_map_fixChar _ (wordsOf_wordlist _), ?_, ?_⟩
  · rw [hm]
    show fix_common_errors (joinSp (wordsOf (stripWs l))) = _
    rw [fix_eq_map_fixChar, map_fixChar_joinSp]
  · rw [List.map_map]
    exact List.map_congr_left (fun w _ => by
      show (List.map fixChar ∘ List.map fixChar) w = _
      simp only [Function.comp]
      exact map_fixChar_idem w)

theorem processLine_fixpoint {l m : List Char} (h : processLine l = some m) :
    processLine m = some m := by
  obtain ⟨ws, hws, hm, hstab⟩ := processLine_some_wordlist h
  obtain ⟨-, -, hlen, halnum⟩ := processLine_some_eq h
  have hstrip : stripWs m = m := by rw [hm]; exact stripWs_joinSp ws hws
  have hcol : collapseWs m = m := by
    rw [hm]
    show joinSp (wordsOf (joinSp ws)) = joinSp ws
    rw [wordsOf_joinSp ws hws]
  have hfix : fix_common_errors m = m := by
    rw [hm, fix_eq_map_fixChar, map_fixChar_joinSp, hstab]
  have hne : m ≠ [] := by
    intro hnil
    rw [hnil] at hlen
    simp at hlen
  unfold processLine
  rw [hstrip, if_neg hne, hcol, hfix, if_pos ⟨hlen, halnum⟩]

theorem processLine_no_newline {l m : List Char} (h : processLine l = some m) :
    '\n' ∉ m := by
  obtain ⟨ws, hws, hm, -⟩ := processLine_some_wordlist h
  rw [hm]
  intro hmem
  rcases mem_joinSp ws hws '\n' hmem with hcase | hcase
  · exact absurd hcase (by decide)
  · exact absurd hcase (by decide)

theorem splitNlAux_append (l : List Char) (hl : '\n' ∉ l) :
    ∀ (r acc : List Char), splitNlAux (l ++ r) acc = splitNlAux r (l.reverse ++ acc) := by
  induction l with
  | nil => intro r acc; simp
  | cons c t ih =>
    intro r acc
    have hc : c ≠ '\n' := fun hh => hl (hh ▸ List.mem_cons_self c t)
    have ht : '\n' ∉ t := fun hh => hl (List.mem_cons_of_mem c hh)
    simp only [List.cons_append]
    simp only [splitNlAux]
    rw [if_neg hc]
    rw [ih ht r (c :: acc)]
    simp [List.reverse_cons, List.append_assoc]

theorem splitNlAux_no_newline (l : List Char) (hl : '\n' ∉ l) (acc : List Char) :
    splitNlAux l acc = [acc.reverse ++ l] := by
  have := splitNlAux_append l hl [] acc
  rw [List.append_nil] at this
  rw [this]
  show [(l.reverse ++ acc).reverse] = _
  simp

theorem joinNl_cons_cons (w x : List Char) (xs : List (List Char)) :
    joinNl (w :: x :: xs) = w ++ '\n' :: joinNl (x :: xs) := rfl

theorem splitNl_joinNl (ls : List (List Char)) (hne : ls ≠ [])
    (hnl : ∀ l ∈ ls, '\n' ∉ l) : splitNl (joinNl ls) = ls := by
  induction ls with
  | nil => exact absurd rfl hne
  | cons a t ih =>
    have ha : '\n' ∉ a := hnl a (List.mem_cons_self a t)
    cases t with
    | nil =>
      show splitNlAux a [] = [a]
      rw [splitNlAux_no_newline a ha []]
      rfl
    | cons b bs =>
      rw [joinNl_cons_cons]
      show splitNlAux (a ++ '\n' :: joinNl (b :: bs)) [] = a :: b :: bs
      rw [splitNlAux_append a ha ('\n' :: joinNl (b :: bs)) []]
      have hstep : splitNlAux ('\n' :: joinNl (b :: bs)) (a.reverse ++ [])
          = (a.reverse ++ []).reverse :: splitNlAux (joinNl (b :: bs)) [] := by
        simp only [splitNlAux]
        simp
      rw [hstep]
      have ht : ∀ l ∈ b :: bs, '\n' ∉ l := fun x hx => hnl x (List.mem_cons_of_mem a hx)
      rw [List.append_nil, List.reverse_reverse]
      exact congrArg (a :: ·) (ih (by simp) ht)

theorem filterMap_fixpoints (ls : List (List Char))
    (h : ∀ x ∈ ls, processLine x = some x) :
    List.filterMap processLine ls = ls := by
  induction ls with
  | nil => rfl
  | cons a t ih =>
    rw [List.filterMap_cons, h a (List.mem_cons_self a t)]
    exact congrArg (a :: ·) (ih (fun x hx => h x (List.mem_cons_of_mem a hx)))

theorem filterMap_sublist_map {α β : Type} (f : α → Option β) (g : α → β)
    (hfg : ∀ a b, f a = some b → b = g a) (l : List α) :
    List.Sublist (List.filterMap f l) (List.map g l) := by
  induction l with
  | nil => simp
  | cons a t ih =>
    rw [List.filterMap_cons, List.map_cons]
    cases hfa : f a with
    | none => exact List.Sublist.cons _ ih
    | some b =>
      rw [hfg a b hfa]
      exact List.Sublist.cons₂ _ ih

/-- C8: `clean` is idempotent: for every text `t`,
`clean(clean(t)) == clean(t)`, where `clean` is `OCRApp.post_process_text`. -/
theorem c8_clean_idempotent (t : List Char) :
    post_process_text (post_process_text t) = post_process_text t := by
  by_cases hls : cleanedLines t = []
  · have hpt : post_process_text t = [] := by
      rw [post_process_text, hls]
      rfl
    rw [hpt]
    rfl
  · have h1 : ∀ x ∈ cleanedLines t, processLine x = some x := by
      intro x hx
      obtain ⟨y, -, hxy⟩ := List.mem_filterMap.1 hx
      exact processLine_fixpoint hxy
    have h2 : ∀ x ∈ cleanedLines t, '\n' ∉ x := by
      intro x hx
      obtain ⟨y, -, hxy⟩ := List.mem_filterMap.1 hx
      exact processLine_no_newline (processLine_fixpoint hxy)
    show joinNl (cleanedLines (joinNl (cleanedLines t))) = joinNl (cleanedLines t)
    rw [show cleanedLines (joinNl (cleanedLines t))
          = List.filterMap processLine (splitNl (joinNl (cleanedLines t))) from rfl]
    rw [splitNl_joinNl _ hls h2]
    rw [filterMap_fixpoints _ h1]

/-- C9: `clean` (being a total function, it never throws in this model) never
increases the line count, keeps the surviving lines in their original relative
order as the cleaned forms of input lines, and every surviving line has length
strictly greater than 2 and contains an alphanumeric character. -/
theorem c9_clean_shape (t : List Char) :
    (cleanedLines t).length ≤ (splitNl t).length ∧
    (∀ m ∈ cleanedLines t, 2 < m.length ∧ m.any Char.isAlphanum = true) ∧
    List.Sublist (cleanedLines t)
      ((splitNl t).map (fun l => fix_common_errors (collapseWs (stripWs l)))) := by
  refine ⟨List.length_filterMap_le _ _, ?_, ?_⟩
  · intro m hm
    obtain ⟨y, -, hym⟩ := List.mem_filterMap.1 hm
    obtain ⟨-, -, hlen, halnum⟩ := processLine_some_eq hym
    exact ⟨hlen, halnum⟩
  · exact filterMap_sublist_map processLine _
      (fun a b hab => (processLine_some_eq hab).1) (splitNl t)

/-- C9 witness: a concrete text on which the theorem's per-line hypotheses are
discharged at the surviving line. -/
theorem c9_clean_shape_witness :
    ("hello world".data ∈ cleanedLines ("hello world\n!!\nx".data)) ∧
    (2 < "hello world".data.length ∧ "hello world".data.any Char.isAlphanum = true) :=
  ⟨by decide, (c9_clean_shape ("hello world\n!!\nx".data)).2.1 "hello world".data (by decide)⟩

/-- The separator class `[.:# ]` appearing in every extraction pattern of
`DocumentManager.parse_document_info`. -/
def sepChar (c : Char) : Bool :=
  c == '.' || c == ':' || c == '#' || c == ' '

/-- The class `[A-Z0-9-]` of the document-number pattern. -/
def numChar (c : Char) : Bool :=
  ('A' ≤ c && c ≤ 'Z') || c.isDigit || c == '-'

/-- The class `[A-Z ]` of the name pattern. -/
def nameChar (c : Char) : Bool :=
  ('A' ≤ c && c ≤ 'Z') || c == ' '

/-- Remove a literal pattern from the front of the text, returning the rest. -/
def stripPre : List Char → List Char → Option (List Char)
  | [], l => some l
  | _ :: _, [] => none
  | p :: ps, c :: cs => if p = c then stripPre ps cs else none

/-- Regex alternation `(?:A|B|...)` at a fixed position: try each literal
alternative in order; if it matches textually, run the continuation on the
rest, backtracking to the next alternative on failure (Python `re` semantics,
needed because EXP is a prefix of EXPIRES and ISS of ISSUED). -/
def firstAlt {α : Type} (k : List Char → Option α) :
    List (List Char) → List Char → Option α
  | [], _ => none
  | a :: rest, l =>
    match stripPre a l with
    | some r =>
      match k r with
      | some v => some v
      | none => firstAlt k rest l
    | none => firstAlt k rest l

/-- `re.search` position scan: try the matcher at every suffix, leftmost
match wins. -/
def scanFor {α : Type} (matchAt : List Char → Option α) : List Char → Option α
  | [] => matchAt []
  | c :: rest =>
    match matchAt (c :: rest) with
    | some v => some v
    | none => scanFor matchAt rest

/-- After a matched label: `[.:# ]*([A-Z0-9-]{6,})`.  The separator and
capture classes are disjoint, so the greedy separator run never needs to
backtrack. -/
def numCap (r : List Char) : Option (List Char) :=
  let cap := (r.dropWhile sepChar).takeWhile numChar
  if 6 ≤ cap.length then some cap else none

/-- The document-number pattern `(?:ID|DL|NO|NUMBER)[.:# ]*([A-Z0-9-]{6,})`
at a fixed position. -/
def numberAt (l : List Char) : Option (List Char) :=
  firstAlt numCap ["ID".data, "DL".data, "NO".data, "NUMBER".data] l

/-- Backtracking for `[.:# ]*([A-Z ]+)`: the classes share the space
character, so after the greedy separator run fails to leave a nonempty
capture, separator characters are given back one at a time (longest
separator first, greedy capture each time), exactly as Python `re` does.
`sepRev` is the consumed separator run, reversed. -/
def bkName : List Char → List Char → Option (List Char)
  | sepRev, rest =>
    let cap := rest.takeWhile nameChar
    if cap = [] then
      match sepRev with
      | [] => none
      | c :: srest => bkName srest (c :: rest)
    else some cap

/-- The name pattern `(?:NAME)[.:# ]*([A-Z ]+)` at a fixed position. -/
def nameAt (l : List Char) : Option (List Char) :=
  match stripPre "NAME".data l with
  | none => none
  | some r => bkName (r.takeWhile sepChar).reverse (r.dropWhile sepChar)

/-- The date token `\d{1,2}[-\x2f]\d{1,2}[-\x2f]\d{2,4}` with Python greedy
semantics: a run of more than two digits before a separator can never match
(backtracking inside the run still leaves a digit where the separator must
be), and the final run is captured greedily up to four digits. -/
def dateTok (rest : List Char) : Option (List Char) :=
  let d1 := rest.takeWhile Char.isDigit
  if d1.length = 0 ∨ 2 < d1.length then none
  else
    match rest.drop d1.length with
    | [] => none
    | s1 :: r1 =>
      if s1 = '-' ∨ s1 = '/' then
        let d2 := r1.takeWhile Char.isDigit
        if d2.length = 0 ∨ 2 < d2.length then none
        else
          match r1.drop d2.length with
          | [] => none
          | s2 :: r2 =>
            if s2 = '-' ∨ s2 = '/' then
              let d3 := r2.takeWhile Char.isDigit
              if d3.length < 2 then none
              else some (d1 ++ s1 :: (d2 ++ s2 :: d3.take 4))
            else none
      else none

/-- After a matched date label: `[.:# ]*(` date token `)` (classes disjoint,
no backtracking into the separator run is possible). -/
def dateCap (r : List Char) : Option (List Char) :=
  dateTok (r.dropWhile sepChar)

/-- `(?:DOB|BIRTH)` date pattern at a fixed position. -/
def dobAt (l : List Char) : Option (List Char) :=
  firstAlt dateCap ["DOB".data, "BIRTH".data] l

/-- `(?:EXP|EXPIRES)` date pattern at a fixed position. -/
def expAt (l : List Char) : Option (List Char) :=
  firstAlt dateCap ["EXP".data, "EXPIRES".data] l

/-- `(?:ISS|ISSUED)` date pattern at a fixed position. -/
def issAt (l : List Char) : Option (List Char) :=
  firstAlt dateCap ["ISS".data, "ISSUED".data] l

/-- Python `str.title()` on ASCII text: a letter is uppercased when the
previous character is not a letter, lowercased otherwise.  The flag records
whether the previous character was a letter. -/
def titleAux : Bool → List Char → List Char
  | _, [] => []
  | prevAlpha, c :: rest =>
    if c.isAlpha then
      (if prevAlpha then c.toLower else c.toUpper) :: titleAux true rest
    else c :: titleAux false rest

/-- Substring test `p in l` (Python `in` on strings). -/
def startsWithL : List Char → List Char → Bool
  | [], _ => true
  | _ :: _, [] => false
  | p :: ps, c :: cs => p == c && startsWithL ps cs

def containsL (sub : List Char) : List Char → Bool
  | [] => startsWithL sub []
  | c :: rest => startsWithL sub (c :: rest) || containsL sub rest

/-- The structured record returned by `DocumentManager.parse_document_info`
(the constant-empty `metadata` dictionary is omitted). -/
structure DocInfo where
  doc_type : List Char
  doc_number : List Char
  full_name : List Char
  date_of_birth : List Char
  expiry_date : List Char
  issue_date : List Char
deriving DecidableEq

/-- The fixed priority order of document types in
`DocumentManager.parse_document_info`. -/
def doc_types : List (List Char) :=
  ["PASSPORT".data, "DRIVER LICENSE".data, "ID CARD".data]

/-- First document type literally contained in the upper-cased text
(the `for doc_type in doc_types: if doc_type in text_upper: break` loop). -/
def firstDocType : List (List Char) → List Char → List Char
  | [], _ => []
  | t :: ts, up => if containsL t up then t else firstDocType ts up

/-- `DocumentManager.parse_document_info` (src/document_manager.py lines
447-492): upper-case the text, then run the independent pattern searches;
unmatched fields stay empty, the captured name is title-cased. -/
def parse_document_info (text : List Char) : DocInfo :=
  let up := text.map Char.toUpper
  { doc_type := firstDocType doc_types up
    doc_number := (scanFor numberAt up).getD []
    full_name := ((scanFor nameAt up).map (titleAux false)).getD []
    date_of_birth := (scanFor dobAt up).getD []
    expiry_date := (scanFor expAt up).getD []
    issue_date := (scanFor issAt up).getD [] }

/-- C7: `extract` is total (never raises) and returns empty strings for
fields it cannot find — on the empty text every field is empty; matching is
case-insensitive via the upper-cased copy, the name is title-cased:
`extract("NAME: JOHN SMITH\nDOB 01-02-1990")` yields
`full_name = "John Smith"` and `date_of_birth = "01-02-1990"`, and the same
input lower-cased extracts the same name. -/
theorem c7_extract_examples :
    parse_document_info [] = ⟨[], [], [], [], [], []⟩ ∧
    (parse_document_info ("NAME: JOHN SMITH\nDOB 01-02-1990".data)).full_name
      = "John Smith".data ∧
    (parse_document_info ("NAME: JOHN SMITH\nDOB 01-02-1990".data)).date_of_birth
      = "01-02-1990".data ∧
    (parse_document_info ("NAME: JOHN SMITH\nDOB 01-02-1990".data)).doc_number = [] ∧
    (parse_document_info ("name: john smith\ndob 01-02-1990".data)).full_name
      = "John Smith".data := by
  refine ⟨by decide, by decide, by decide, by decide, by decide⟩

/-- A row of the `documents` table as created by
`DocumentManager.init_database` (src/document_manager.py lines 54-62):
`id, raw_text, date_added, last_modified, verification_status`.
There are no structured-field columns in the schema. -/
structure Document where
  id : Nat
  raw_text : List Char
  date_added : Nat
  last_modified : Nat
  verification_status : List Char
deriving DecidableEq

/-- A row of the `audit_log` table (lines 65-75): autoincrement `id`,
`document_id`, `action`, `timestamp`, `user`, `details`. -/
structure AuditEntry where
  id : Nat
  document_id : Nat
  action : List Char
  timestamp : Nat
  user : List Char
  details : List Char
deriving DecidableEq

/-- The store state: both tables plus the autoincrement counter of
`audit_log`. -/
structure DB where
  documents : List Document
  audit_log : List AuditEntry
  next_audit_id : Nat
deriving DecidableEq

/-- The freshly initialised store (`init_database` recreates the file). -/
def emptyDB : DB := ⟨[], [], 1⟩

/-- `SELECT COALESCE(MAX(id), 0) FROM documents`. -/
def maxIdOf (docs : List Document) : Nat :=
  docs.foldr (fun d m => max d.id m) 0

/-- The interpolated detail strings of `log_action` callers. -/
def docDetails (i : Nat) (rest : List Char) : List Char :=
  "Document ".data ++ (Nat.repr i).data ++ rest

/-- `DocumentManager.log_action` (lines 535-554): insert one audit row and
commit.  The `ok` flag models whether the insert raises; the surrounding
`try`/`except` swallows the exception, leaving the store unchanged. -/
def log_action (ok : Bool) (doc_id : Nat) (act dets : List Char) (now : Nat)
    (db : DB) : DB :=
  if ok then
    { db with
      audit_log := db.audit_log ++
        [⟨db.next_audit_id, doc_id, act, now, "SYSTEM".data, dets⟩],
      next_audit_id := db.next_audit_id + 1 }
  else db

/-- `DocumentManager.save_document` (lines 494-533): compute
`MAX(id)+1`, insert the document row with both timestamps set to `now` and
status PENDING, commit, then call `log_action` with action ADD.  The row
commit happens before — and independently of — the audit write. -/
def save_document (raw : List Char) (now : Nat) (ok : Bool) (db : DB) : DB :=
  log_action ok (maxIdOf db.documents + 1) "ADD".data
    (docDetails (maxIdOf db.documents + 1) " added to system".data) now
    { db with documents := db.documents ++
        [⟨maxIdOf db.documents + 1, raw, now, now, "PENDING".data⟩] }

/-- `SELECT ... FROM documents WHERE id = ?` followed by `fetchone`, as in
`show_document_details` / `edit_selected_document`. -/
def getDocument (db : DB) (i : Nat) : Option Document :=
  db.documents.find? (fun d => d.id == i)

inductive StoreErr
  | notFound
deriving DecidableEq

/-- `DocumentManager.edit_selected_document` together with its inner
`save_changes` (lines 237-307): fetch the row, error if absent; otherwise
store the stripped editor text (`text_area.get(...).strip()`), set
`last_modified` to `now`, and log an EDIT action.
`editRow` is the row-level effect of the `UPDATE ... WHERE id = ?`. -/
def editRow (i : Nat) (txt : List Char) (now : Nat) (d : Document) : Document :=
  if d.id == i then { d with raw_text := stripWs txt, last_modified := now } else d

def edit_selected_document (i : Nat) (txt : List Char) (now : Nat) (ok : Bool)
    (db : DB) : Except StoreErr DB :=
  match getDocument db i with
  | none => Except.error StoreErr.notFound
  | some _ =>
    Except.ok (log_action ok i "EDIT".data (docDetails i " edited".data) now
      { db with documents := db.documents.map (editRow i txt now) })

/-- The per-item body of `DocumentManager.delete_selected_document`
(lines 209-235): `DELETE FROM documents WHERE id = ?` (no presence check,
zero rows affected is not an error) followed by `log_action` with action
DELETE. -/
def delete_selected_document (i : Nat) (now : Nat) (ok : Bool) (db : DB) : DB :=
  log_action ok i "DELETE".data (docDetails i " deleted from system".data) now
    { db with documents := db.documents.filter (fun d => d.id != i) }

/-- One mutating store call, with its clock instant. -/
inductive StoreOp
  | save (raw : List Char) (now : Nat)
  | edit (i : Nat) (txt : List Char) (now : Nat)
  | del (i : Nat) (now : Nat)
deriving DecidableEq

/-- Run one operation; the Bool is whether its audit insert succeeds.  A
failed edit (absent id) leaves the store unchanged, as in the source. -/
def applyOp (db : DB) : StoreOp × Bool → DB
  | (StoreOp.save raw now, ok) => save_document raw now ok db
  | (StoreOp.edit i txt now, ok) =>
    match edit_selected_document i txt now ok db with
    | Except.ok db2 => db2
    | Except.error _ => db
  | (StoreOp.del i now, ok) => delete_selected_document i now ok db

def runOps : DB → List (StoreOp × Bool) → DB
  | db, [] => db
  | db, p :: rest => runOps (applyOp db p) rest

/-- Every edit in the sequence targets an id present at its point of
execution (edits on absent ids are rejected without logging). -/
def editsPresentB : DB → List (StoreOp × Bool) → Bool
  | _, [] => true
  | db, p :: rest =>
    (match p.1 with
     | StoreOp.edit i _ _ => (getDocument db i).isSome
     | _ => true) && editsPresentB (applyOp db p) rest

theorem log_action_documents (ok : Bool) (i : Nat) (a d : List Char) (n : Nat)
    (db : DB) : (log_action ok i a d n db).documents = db.documents := by
  unfold log_action
  cases ok <;> rfl

theorem log_action_audit_true (i : Nat) (a d : List Char) (n : Nat) (db : DB) :
    (log_action true i a d n db).audit_log =
      db.audit_log ++ [⟨db.next_audit_id, i, a, n, "SYSTEM".data, d⟩] := rfl

theorem mem_le_maxIdOf (docs : List Document) : ∀ d ∈ docs, d.id ≤ maxIdOf docs := by
  induction docs with
  | nil => intro d hd; cases hd
  | cons a t ih =>
    intro d hd
    rcases List.mem_cons.1 hd with rfl | hd'
    · show d.id ≤ max d.id (maxIdOf t)
      exact le_max_left _ _
    · exact le_trans (ih d hd') (le_max_right _ _)

theorem getDocument_save (db : DB) (raw : List Char) (now : Nat) (ok : Bool) :
    getDocument (save_document raw now ok db) (maxIdOf db.documents + 1) =
      some ⟨maxIdOf db.documents + 1, raw, now, now, "PENDING".data⟩ := by
  unfold getDocument save_document
  rw [log_action_documents]
  show (db.documents ++
        [(⟨maxIdOf db.documents + 1, raw, now, now, "PENDING".data⟩ : Document)]).find?
      (fun d => d.id == maxIdOf db.documents + 1) = _
  rw [List.find?_append]
  have h1 : db.documents.find? (fun d => d.id == maxIdOf db.documents + 1) = none := by
    rw [List.find?_eq_none]
    intro d hd hbeq
    have heq : d.id = maxIdOf db.documents + 1 := by simpa using hbeq
    have hle := mem_le_maxIdOf db.documents d hd
    omega
  rw [h1]
  simp

/-- C6: `create` assigns the id `MAX(id)+1` (so 1 on an empty store), sets
`date_added` and `last_modified` to the same instant and status to PENDING,
and an immediately following `get` of that id returns exactly the submitted
document. -/
theorem c6_create_get (db : DB) (raw : List Char) (now : Nat) (ok : Bool) :
    (db.documents = [] → maxIdOf db.documents + 1 = 1) ∧
    getDocument (save_document raw now ok db) (maxIdOf db.documents + 1) =
      some ⟨maxIdOf db.documents + 1, raw, now, now, "PENDING".data⟩ := by
  constructor
  · intro h
    rw [h]
    rfl
  · exact getDocument_save db raw now ok

/-- C6 witness: creating in the empty store yields id 1, and `get 1` returns
the submitted document with equal timestamps and PENDING status. -/
theorem c6_create_get_witness :
    maxIdOf emptyDB.documents + 1 = 1 ∧
    getDocument (save_document ('A' :: []) 5 true emptyDB) 1 =
      some ⟨1, 'A' :: [], 5, 5, "PENDING".data⟩ :=
  ⟨(c6_create_get emptyDB ('A' :: []) 5 true).1 rfl,
   (c6_create_get emptyDB ('A' :: []) 5 true).2⟩

/-- C3 counterexample: `save_document` performs no validation — creating
with empty `raw_text` succeeds and persists a document whose `raw_text` is
empty, so the claimed `ValidationError` does not exist in the code. -/
theorem c3_create_validation_counterexample :
    (save_document [] 0 true emptyDB).documents = [⟨1, [], 0, 0, "PENDING".data⟩] := by
  decide

/-- C3 amended: `create` accepts empty `raw_text` without error: on any
store it persists a document with empty `raw_text`, next id, equal
timestamps and status PENDING, retrievable by `get`. -/
theorem c3_create_validation_amended (db : DB) (now : Nat) (ok : Bool) :
    getDocument (save_document [] now ok db) (maxIdOf db.documents + 1) =
      some ⟨maxIdOf db.documents + 1, [], now, now, "PENDING".data⟩ :=
  getDocument_save db [] now ok

/-- C5 amended: after `delete(id)` a `get(id)` finds nothing, and the audit
log is exactly the previous log (every earlier entry, including the
original ADD, preserved — entries are never updated or deleted) plus one
new DELETE entry referencing `id`.  The absent-id clause of the claim fails:
see the counterexample. -/
theorem c5_delete_amended (db : DB) (i : Nat) (now : Nat) :
    getDocument (delete_selected_document i now true db) i = none ∧
    ∃ e, (delete_selected_document i now true db).audit_log = db.audit_log ++ [e] ∧
      e.document_id = i ∧ e.action = "DELETE".data := by
  constructor
  · unfold getDocument delete_selected_document
    rw [log_action_documents]
    rw [List.find?_eq_none]
    intro d hd hbeq
    have h1 : (d.id != i) = true := (List.mem_filter.1 hd).2
    have h2 : d.id = i := by simpa using hbeq
    simp [h2] at h1
  · exact ⟨⟨db.next_audit_id, i, "DELETE".data, now, "SYSTEM".data,
      docDetails i " deleted from system".data⟩, rfl, rfl, rfl⟩

/-- C5 counterexample: delete on an absent id does not fail with any
not-found error — it removes nothing and still writes a DELETE audit entry
(the source has no presence check and reports success). -/
theorem c5_delete_counterexample :
    (delete_selected_document 7 0 true emptyDB).documents = [] ∧
    (delete_selected_document 7 0 true emptyDB).audit_log.map
        (fun e => (e.document_id, e.action)) = [(7, "DELETE".data)] := by
  refine ⟨by decide, by decide⟩

/-- The operation sequence of C10: create, create, delete the document with
the maximal id, create again. -/
def reuseOps : List (StoreOp × Bool) :=
  [(StoreOp.save ('A' :: []) 0, true), (StoreOp.save ('B' :: []) 1, true),
   (StoreOp.del 2 2, true), (StoreOp.save ('C' :: []) 3, true)]

/-- C10: ids are reused after deletion — after create, create, delete id 2,
create, the new document receives id 2 again, and the pre-existing ADD and
DELETE audit entries for the deleted document now reference the id of the
new (different) document. -/
theorem c10_id_reuse :
    ((runOps emptyDB reuseOps).audit_log.map (fun e => (e.document_id, e.action))) =
      [(1, "ADD".data), (2, "ADD".data), (2, "DELETE".data), (2, "ADD".data)] ∧
    (getDocument (runOps emptyDB reuseOps) 2).map
        (fun d => (d.raw_text, d.date_added)) = some (('C' :: []), 3) := by
  refine ⟨by decide, by decide⟩

theorem editRow_id (i : Nat) (txt : List Char) (now : Nat) (d : Document) :
    (editRow i txt now d).id = d.id := by
  unfold editRow
  by_cases h : (d.id == i) = true
  · rw [if_pos h]
  · rw [if_neg h]

theorem find?_map_editRow (i : Nat) (txt : List Char) (now : Nat)
    (l : List Document) (j : Nat) :
    (l.map (editRow i txt now)).find? (fun d => d.id == j) =
      (l.find? (fun d => d.id == j)).map (editRow i txt now) := by
  rw [List.find?_map]
  have hfun : ((fun d : Document => d.id == j) ∘ editRow i txt now) =
      (fun d : Document => d.id == j) := by
    funext d
    show ((editRow i txt now d).id == j) = (d.id == j)
    rw [editRow_id]
  rw [hfun]

/-- C4 amended: update on an absent id fails with the not-found error and
mutates nothing; update on a present id stores the whitespace-stripped
submitted text (the code strips the editor content — see the
counterexample for why "exactly the submitted text" fails), sets
`last_modified` to the write instant (a strict increase whenever the clock
advanced), leaves `id`, `date_added` and `verification_status` unchanged
(the schema has no structured-field columns to touch), leaves every other
document unchanged, and logs exactly one EDIT entry. -/
theorem c4_update_amended (db : DB) (i : Nat) (txt : List Char) (now : Nat) (ok : Bool) :
    (getDocument db i = none →
      edit_selected_document i txt now ok db = Except.error StoreErr.notFound) ∧
    (∀ d, getDocument db i = some d →
      ∃ db2, edit_selected_document i txt now ok db = Except.ok db2 ∧
        getDocument db2 i =
          some { d with raw_text := stripWs txt, last_modified := now } ∧
        (∀ j, j ≠ i → getDocument db2 j = getDocument db j) ∧
        (ok = true → db2.audit_log.length = db.audit_log.length + 1)) := by
  constructor
  · intro h
    unfold edit_selected_document
    rw [h]
  · intro d hd
    have hd' : db.documents.find? (fun x => x.id == i) = some d := hd
    have hdid : (d.id == i) = true := by
      have := List.find?_some hd'
      simpa using this
    refine ⟨log_action ok i "EDIT".data (docDetails i " edited".data) now
      { db with documents := db.documents.map (editRow i txt now) }, ?_, ?_, ?_, ?_⟩
    · unfold edit_selected_document
      rw [hd]
    · unfold getDocument
      rw [log_action_documents]
      show (db.documents.map (editRow i txt now)).find? (fun d => d.id == i) = _
      rw [find?_map_editRow]
      rw [show db.documents.find? (fun d => d.id == i) = some d from hd]
      show some (editRow i txt now d) = _
      unfold editRow
      rw [if_pos hdid]
    · intro j hj
      unfold getDocument
      rw [log_action_documents]
      show (db.documents.map (editRow i txt now)).find? (fun d => d.id == j) = _
      rw [find?_map_editRow]
      cases hfd : db.documents.find? (fun d => d.id == j) with
      | none => rfl
      | some e =>
        have hej : e.id = j := by simpa using List.find?_some hfd
        show some (editRow i txt now e) = some e
        unfold editRow
        rw [if_neg (by simp [hej]; omega)]
    · intro hok
      subst hok
      rw [log_action_audit_true]
      simp

/-- A one-document store used by concrete store theorems. -/
def docEx : Document := ⟨1, "old".data, 0, 0, "PENDING".data⟩

def dbEx : DB := ⟨[docEx], [], 1⟩

/-- C4 witness: editing the present document 1 succeeds and stores the
stripped text with the new `last_modified`. -/
theorem c4_update_witness :
    getDocument dbEx 1 = some docEx ∧
    ∃ db2, edit_selected_document 1 ("new text".data) 9 true dbEx = Except.ok db2 ∧
      getDocument db2 1 =
        some { docEx with raw_text := stripWs ("new text".data), last_modified := 9 } := by
  refine ⟨by decide, ?_⟩
  obtain ⟨db2, h1, h2, -, -⟩ :=
    (c4_update_amended dbEx 1 ("new text".data) 9 true).2 docEx (by decide)
  exact ⟨db2, h1, h2⟩

/-- Projection used by the C4 counterexample: the raw text of document 1
after a successful edit call. -/
def editResultText (e : Except StoreErr DB) : Option (List Char) :=
  match e with
  | Except.ok db2 => (getDocument db2 1).map Document.raw_text
  | Except.error _ => none

/-- C4 counterexample: the code stores the `.strip()`-ed editor content, not
exactly the submitted text — submitting text with surrounding whitespace
stores a different string. -/
theorem c4_update_counterexample :
    editResultText
        (edit_selected_document 1 (' ' :: 'x' :: 'y' :: ' ' :: []) 9 true dbEx)
      = some ('x' :: 'y' :: []) ∧
    ('x' :: 'y' :: []) ≠ (' ' :: 'x' :: 'y' :: ' ' :: []) := by
  refine ⟨by decide, by decide⟩

theorem audit_len_applyOp (db : DB) (p : StoreOp × Bool) (hok : p.2 = true)
    (hp : ∀ i txt n, p.1 = StoreOp.edit i txt n → (getDocument db i).isSome = true) :
    (applyOp db p).audit_log.length = db.audit_log.length + 1 := by
  rcases p with ⟨op, ok⟩
  have hok' : ok = true := hok
  subst hok'
  cases op with
  | save raw n =>
    show (save_document raw n true db).audit_log.length = _
    unfold save_document
    rw [log_action_audit_true]
    simp
  | edit i txt n =>
    have hsome := hp i txt n rfl
    rw [Option.isSome_iff_exists] at hsome
    obtain ⟨d, hd⟩ := hsome
    show (match edit_selected_document i txt n true db with
          | Except.ok db2 => db2
          | Except.error _ => db).audit_log.length = _
    unfold edit_selected_document
    rw [hd]
    show (log_action true i "EDIT".data (docDetails i " edited".data) n
        { db with documents := db.documents.map (editRow i txt n) }).audit_log.length = _
    rw [log_action_audit_true]
    simp
  | del i n =>
    show (delete_selected_document i n true db).audit_log.length = _
    unfold delete_selected_document
    rw [log_action_audit_true]
    simp

/-- C1 amended: the data-row change and its audit entry are written in
separate transactions (the audit write comes second and its failure is
swallowed), so atomicity fails — see the counterexample.  What does hold:
when every audit insert succeeds and every update targets a present id, the
number of audit rows equals the number of mutating calls, counting every
create and delete call (a delete of an absent id removes nothing but still
logs DELETE) and the updates of present ids. -/
theorem c1_audit_amended (ops : List (StoreOp × Bool)) : ∀ db : DB,
    ops.all (fun p => p.2) = true → editsPresentB db ops = true →
    (runOps db ops).audit_log.length = db.audit_log.length + ops.length := by
  induction ops with
  | nil =>
    intro db _ _
    simp [runOps]
  | cons p rest ih =>
    intro db hall hpres
    obtain ⟨hok, hall2⟩ : p.2 = true ∧ rest.all (fun p => p.2) = true := by
      simpa using hall
    obtain ⟨hm, hrest⟩ : (match p.1 with
        | StoreOp.edit i _ _ => (getDocument db i).isSome
        | _ => true) = true ∧ editsPresentB (applyOp db p) rest = true := by
      have h := hpres
      unfold editsPresentB at h
      simpa using h
    have hm2 : ∀ i txt n, p.1 = StoreOp.edit i txt n → (getDocument db i).isSome = true := by
      intro i txt n heq
      rw [heq] at hm
      exact hm
    show (runOps (applyOp db p) rest).audit_log.length
        = db.audit_log.length + (p :: rest).length
    rw [ih (applyOp db p) hall2 hrest, audit_len_applyOp db p hok hm2]
    simp [List.length_cons]
    omega

/-- C1 counterexample: when the audit insert fails, the exception is
swallowed and the already-committed document insert is not rolled back — a
successful create leaves one document row and zero audit rows, so the
row/log counts diverge and the claimed single-transaction atomicity does
not hold. -/
theorem c1_audit_counterexample :
    (save_document ('A' :: []) 0 false emptyDB).documents.length = 1 ∧
    (save_document ('A' :: []) 0 false emptyDB).audit_log.length = 0 := by
  refine ⟨by decide, by decide⟩

/-- The concrete create/update/delete sequence of the C1 witness. -/
def opsEx : List (StoreOp × Bool) :=
  [(StoreOp.save ('A' :: []) 0, true), (StoreOp.edit 1 ('B' :: []) 1, true),
   (StoreOp.del 1 2, true)]

/-- C1 witness: on a create, update, delete sequence with all audit writes
succeeding and the update targeting a present id, the audit log holds
exactly three entries. -/
theorem c1_audit_witness :
    opsEx.all (fun p => p.2) = true ∧ editsPresentB emptyDB opsEx = true ∧
    (runOps emptyDB opsEx).audit_log.length = 3 :=
  ⟨by decide, by decide, c1_audit_amended opsEx emptyDB (by decide) (by decide)⟩

/-- The columns of the `documents` table as created by `init_database`
(src/document_manager.py lines 54-62). -/
def documentsTableColumns : List (List Char) :=
  ["id".data, "raw_text".data, "date_added".data, "last_modified".data,
   "verification_status".data]

/-- The columns referenced by the search query of `on_search_change`
(lines 611-616): selected, filtered and ordered-by columns. -/
def searchReferencedColumns : List (List Char) :=
  ["id".data, "doc_type".data, "doc_number".data, "full_name".data,
   "date_added".data]

inductive SqlError
  | noSuchColumn
deriving DecidableEq

/-- Whether all columns the search query references exist in the schema —
what sqlite3 checks before executing the query. -/
def searchColumnsOk : Bool :=
  searchReferencedColumns.all (fun c => documentsTableColumns.contains c)

/-- `DocumentManager.on_search_change` (lines 599-624): strip the typed
term; an empty term yields an empty result list without querying; a
non-empty term runs the SQL query, which sqlite3 rejects whenever a
referenced column is missing from the schema.  The success branch is
unreachable (proved below): the `documents` table has no
`doc_type`/`doc_number`/`full_name` columns, so there is no row semantics
to model — no store ever satisfies the query. -/
def on_search_change (term : List Char) (_db : DB) : Except SqlError (List Nat) :=
  if stripWs term = [] then Except.ok []
  else if searchColumnsOk then Except.ok []
  else Except.error SqlError.noSuchColumn

/-- C2: the empty-term half of the claim holds (empty sequence regardless of
store contents), but the non-empty half cannot: the search query references
columns absent from the `documents` schema, so every non-empty search (for
example "SMITH") raises `sqlite3.OperationalError` instead of returning
matches — the code contradicts its own schema. -/
theorem c2_search_schema_bug : ∀ db : DB,
    on_search_change [] db = Except.ok [] ∧
    on_search_change ("SMITH".data) db = Except.error SqlError.noSuchColumn := by
  intro db
  exact ⟨rfl, rfl⟩
